import Mathlib

/-!
# Verification of the Project Agent action handlers

Shallow embedding of `src/index.js` (Jira/GitHub action handlers).  Each
handler is modelled as a pure function from the responses the external
fetch collaborators would supply to the value the handler returns, with a
thrown JavaScript `Error` modelled as `Except.error` carrying the message.
Timestamps and date instants are modelled as integer milliseconds (the
value of a JavaScript `Date`); JSON fields that may be `null`/missing are
modelled as `Option`.
-/

namespace ProjectAgent

/-- Outcome of a `requestJira` call as observed by the handlers: either a
response with `ok = true` and a parsed JSON body, or a response with
`ok = false` carrying the (unread, in the Jira paths) status and text. -/
inductive JiraResp (α : Type) where
  | ok (body : α)
  | notOk (status : Nat) (text : String)

/-- Outcome of the `fetch` to `api.github.com` inside the `github` helper:
`ok` with the parsed JSON body, or a non-success response whose status and
text the helper reads. -/
inductive GhResp (α : Type) where
  | ok (body : α)
  | notOk (status : Nat) (text : String)

/-- `github(path)` from the source: throws when the token is missing,
throws `GitHub API error <status>: <text>` on a non-success response, and
otherwise returns the parsed body. -/
def github {α : Type} (token : Option String) (resp : GhResp α) : Except String α :=
  match token with
  | none => .error "GITHUB_TOKEN not configured. Run: forge storage set GITHUB_TOKEN <token>"
  | some _ =>
    match resp with
    | .ok body => .ok body
    | .notOk status text => .error ("GitHub API error " ++ toString status ++ ": " ++ text)

/-! ## LinkedPRResolver: the URL pattern match

The source applies `url.match(/github\.com\/([^/]+\/[^/]+)\/pull\/(\d+)/)`.
We embed the regex as a deterministic matcher: at each start position the
pattern is forced (each `[^/]+` is a maximal slash-free run that must be
followed by a literal `/`, and `(\d+)` is a maximal digit run), and the
search tries start positions left to right. -/

/-- `startsWithL p l` is true iff `p` is a prefix of `l`. -/
def startsWithL : List Char → List Char → Bool
  | [], _ => true
  | _ :: _, [] => false
  | p :: ps, c :: cs => p = c && startsWithL ps cs

/-- The literal `github.com/` part of the pattern. -/
def ghHost : List Char := "github.com/".toList

/-- The literal `/pull/` part of the pattern. -/
def pullSeg : List Char := "/pull/".toList

/-- Value of a digit character. -/
def digitVal (c : Char) : Nat := c.toNat - 48

/-- `parseInt(ds, 10)` on a string of decimal digits. -/
def natOfDigits (ds : List Char) : Nat := ds.foldl (fun n c => n * 10 + digitVal c) 0

/-- The literal `\/` of the pattern: succeeds iff the input starts with
`'/'`, returning the rest. -/
def afterSlash (l : List Char) : Option (List Char) :=
  match l with
  | [] => none
  | c :: t => if c = '/' then some t else none

/-- One attempt of the embedded regex at a fixed start position: requires
the literal `github.com/`, a nonempty slash-free owner segment, `/`, a
nonempty slash-free repo segment, the literal `/pull/`, and at least one
digit.  Returns the captured `owner/repo` string and the parsed number. -/
def matchAt (l : List Char) : Option (String × Nat) :=
  if startsWithL ghHost l then
    let r0 := l.drop ghHost.length
    let own := r0.takeWhile (fun c => c ≠ '/')
    match afterSlash (r0.dropWhile (fun c => c ≠ '/')) with
    | some r2 =>
      if own = [] then none
      else
        let rep := r2.takeWhile (fun c => c ≠ '/')
        let r3 := r2.dropWhile (fun c => c ≠ '/')
        if rep = [] then none
        else if startsWithL pullSeg r3 then
          let ds := (r3.drop pullSeg.length).takeWhile Char.isDigit
          if ds = [] then none
          else some (⟨own ++ '/' :: rep⟩, natOfDigits ds)
        else none
    | none => none
  else none

/-- Left-to-right search of the embedded regex over every start position,
as `String.prototype.match` does for an unanchored pattern. -/
def searchPR : List Char → Option (String × Nat)
  | [] => none
  | c :: t =>
    match matchAt (c :: t) with
    | some r => some r
    | none => searchPR t

/-- `url.match(/github\.com\/([^/]+\/[^/]+)\/pull\/(\d+)/)` projected to
the two captures used by the source (`match[1]`, `parseInt(match[2], 10)`). -/
def matchPRUrl (s : String) : Option (String × Nat) := searchPR s.data

/-- One pull-request reference inside a development-panel detail group:
`url` and `status` are both optional in the upstream JSON. -/
structure PanelPR where
  url : Option String
  status : Option String
deriving DecidableEq, Repr

/-- One detail group of the development panel (`detail.pullRequests`). -/
structure PanelDetail where
  pullRequests : Option (List PanelPR)
deriving DecidableEq, Repr

/-- The development-panel document (`data.detail`). -/
structure PanelData where
  detail : Option (List PanelDetail)
deriving DecidableEq, Repr

/-- The record pushed for each matching reference. -/
structure LinkedPR where
  repo : String
  number : Nat
  state : String
deriving DecidableEq, Repr

/-- `pr.status?.toLowerCase() || 'unknown'`: lowercase the status if
present, falling back to `"unknown"` when the status is absent (or when
the lowercased string is empty, which is falsy in JavaScript). -/
def prState (status : Option String) : String :=
  match status with
  | none => "unknown"
  | some s =>
    let t := s.toLower
    if t = "" then "unknown" else t

/-- The extraction loop of `fetchLinkedPRs`: iterate `data.detail || []`,
then `detail.pullRequests || []`, and push one record per reference whose
`url` is present and matches the pattern. -/
def extractPRs (data : PanelData) : List LinkedPR :=
  (data.detail.getD []).flatMap fun d =>
    (d.pullRequests.getD []).filterMap fun pr =>
      (pr.url.bind matchPRUrl).map fun m =>
        { repo := m.1, number := m.2, state := prState pr.status }

/-- All pull-request references of a panel, in traversal order of the
nested loops. -/
def refsOf (data : PanelData) : List PanelPR :=
  (data.detail.getD []).flatMap fun d => d.pullRequests.getD []

/-- The record emitted for a single reference, when its URL is present and
matches the pattern. -/
def emitRef (pr : PanelPR) : Option LinkedPR :=
  (pr.url.bind matchPRUrl).map fun m =>
    { repo := m.1, number := m.2, state := prState pr.status }

/-- Outcome of the development-panel fetch: a parsed document, a
non-success response (`!response.ok`), or a raised transport fault caught
by the surrounding `try`. -/
inductive PanelFetch where
  | ok (data : PanelData)
  | notOk
  | thrown (msg : String)

/-- `fetchLinkedPRs`: a non-success response returns `[]`, a thrown fault
is caught and returns `[]`, otherwise the extraction loop runs. -/
def fetchLinkedPRs (resp : PanelFetch) : List LinkedPR :=
  match resp with
  | .ok data => extractPRs data
  | .notOk => []
  | .thrown _ => []

/-! ## getIssue -/

/-- The `fields` object of an issue document.  `statusName` models
`fields.status?.name` and `assigneeDisplayName` models
`fields.assignee?.displayName` (absent objects collapse to `none`). -/
structure IssueFields where
  summary : String
  statusName : Option String
  assigneeDisplayName : Option String
deriving DecidableEq, Repr

/-- An issue document as used by `getIssue` (`id` feeds the panel fetch). -/
structure IssueDoc where
  id : String
  key : String
  fields : IssueFields
deriving DecidableEq, Repr

/-- `issue.fields.assignee?.displayName || null`: the `|| null` fallback
maps an absent assignee, and an empty display name, to `null`. -/
def assigneeOf (f : IssueFields) : Option String :=
  match f.assigneeDisplayName with
  | none => none
  | some d => if d = "" then none else some d

/-- The record `getIssue` returns on success. -/
structure IssueResult where
  key : String
  summary : String
  status : Option String
  assignee : Option String
  prs : List LinkedPR
deriving DecidableEq, Repr

/-- `getIssue`: a non-success issue fetch throws `Issue not found: <key>`
(the status and body are not consulted); otherwise the projection is built
and the linked-PR panel result (however it failed) supplies `prs`. -/
def getIssue (issueKey : String) (issueResp : JiraResp IssueDoc)
    (panelResp : PanelFetch) : Except String IssueResult :=
  match issueResp with
  | .notOk _ _ => .error ("Issue not found: " ++ issueKey)
  | .ok issue =>
    .ok { key := issue.key
          summary := issue.fields.summary
          status := issue.fields.statusName
          assignee := assigneeOf issue.fields
          prs := fetchLinkedPRs panelResp }

/-! ## getSprint -/

/-- A board as used by `getSprint` (only `id` is read). -/
structure Board where
  id : Nat
deriving DecidableEq, Repr

/-- The board-list payload: `boards.values` may be absent
(`boards.values?.[0]`). -/
structure BoardsPayload where
  values : Option (List Board)
deriving DecidableEq, Repr

/-- A sprint document.  `endDate` models the parsed end instant in
milliseconds: `none` when `sprint.endDate` is absent or falsy. -/
structure Sprint where
  id : Nat
  name : String
  goal : Option String
  endDate : Option Int
deriving DecidableEq, Repr

/-- The sprint-list payload: `sprints.values` may be absent. -/
structure SprintsPayload where
  values : Option (List Sprint)
deriving DecidableEq, Repr

/-- A sprint issue as projected by `getSprint` (same shape `getIssue`
reads: `fields.summary`, `fields.status?.name`,
`fields.assignee?.displayName`). -/
structure SprintIssue where
  key : String
  fields : IssueFields
deriving DecidableEq, Repr

/-- The sprint-issues payload: `issuesData.issues` may be absent.  The
source never checks `issuesResponse.ok`, so only the parsed body appears
in the model. -/
structure IssuesPayload where
  issues : Option (List SprintIssue)
deriving DecidableEq, Repr

/-- An issue line of the sprint result. -/
structure SprintIssueView where
  key : String
  summary : String
  status : Option String
  assignee : Option String
deriving DecidableEq, Repr

/-- The record `getSprint` returns on success.  The soft outcome
`{name: null, message: 'No active sprint', issues: []}` carries no
`goal`/`daysRemaining` keys, modelled as `none`. -/
structure SprintResult where
  name : Option String
  message : Option String
  goal : Option String
  daysRemaining : Option Int
  issues : List SprintIssueView
deriving DecidableEq, Repr

/-- One day in milliseconds (`1000 * 60 * 60 * 24`). -/
def dayMs : Int := 1000 * 60 * 60 * 24

/-- Ceiling division for integers (divisor positive):
`Math.ceil(a / b)` on the exact rational `a / b`. -/
def ceilDiv (a b : Int) : Int := -((-a) / b)

/-- `endDate ? Math.max(0, Math.ceil((endDate - now) / 86400000)) : null`. -/
def daysRemainingOf (endDate : Option Int) (now : Int) : Option Int :=
  endDate.map fun e => max 0 (ceilDiv (e - now) dayMs)

/-- `sprint.goal || null` (an empty goal string is falsy). -/
def goalOf (g : Option String) : Option String :=
  match g with
  | none => none
  | some s => if s = "" then none else some s

/-- Projection of one sprint issue. -/
def projSprintIssue (i : SprintIssue) : SprintIssueView :=
  { key := i.key
    summary := i.fields.summary
    status := i.fields.statusName
    assignee := assigneeOf i.fields }

/-- The soft `getSprint` outcome. -/
def noActiveSprint : SprintResult :=
  { name := none, message := some "No active sprint", goal := none
    daysRemaining := none, issues := [] }

/-- `getSprint`: a non-success board response, or an absent first board,
throws `No board found for project: <key>`; a non-success active-sprint
response, or an absent first sprint, returns the soft outcome; otherwise
the sprint-issues body (whose response status the source never checks) is
projected and `daysRemaining` computed from the sprint end date. -/
def getSprint (projectKey : String) (boardResp : JiraResp BoardsPayload)
    (sprintResp : JiraResp SprintsPayload) (issuesBody : IssuesPayload)
    (now : Int) : Except String SprintResult :=
  match boardResp with
  | .notOk _ _ => .error ("No board found for project: " ++ projectKey)
  | .ok boards =>
    match (boards.values.getD []).head? with
    | none => .error ("No board found for project: " ++ projectKey)
    | some _board =>
      match sprintResp with
      | .notOk _ _ => .ok noActiveSprint
      | .ok sprints =>
        match (sprints.values.getD []).head? with
        | none => .ok noActiveSprint
        | some sprint =>
          .ok { name := some sprint.name
                message := none
                goal := goalOf sprint.goal
                daysRemaining := daysRemainingOf sprint.endDate now
                issues := (issuesBody.issues.getD []).map projSprintIssue }

/-! ## getPRStatus: review deduplication -/

/-- One review event (`user.login`, `state`, and the parsed
`submitted_at` instant in milliseconds). -/
structure Review where
  user : String
  state : String
  submitted_at : Int
deriving DecidableEq, Repr

/-- The per-user record stored in `reviewsByUser`. -/
structure Entry where
  state : String
  date : Int
deriving DecidableEq, Repr

/-- The entry recorded for a review. -/
def toEntry (r : Review) : Entry := { state := r.state, date := r.submitted_at }

/-- Lookup in the insertion-ordered map (`reviewsByUser[user]`). -/
def findEntry (u : String) : List (String × Entry) → Option Entry
  | [] => none
  | (k, v) :: t => if k = u then some v else findEntry u t

/-- In-place overwrite of the first binding of key `u` (assigning to an
existing key of a JavaScript object keeps its position). -/
def updateEntry (m : List (String × Entry)) (u : String) (e : Entry) :
    List (String × Entry) :=
  match m with
  | [] => []
  | (k, v) :: t => if k = u then (k, e) :: t else (k, v) :: updateEntry t u e

/-- One iteration of the dedup loop: insert when the user is new,
overwrite only when the incoming timestamp is strictly later
(`reviewDate > new Date(existing.date)`). -/
def dedupStep (m : List (String × Entry)) (r : Review) : List (String × Entry) :=
  match findEntry r.user m with
  | none => m ++ [(r.user, toEntry r)]
  | some e =>
    if e.date < r.submitted_at then updateEntry m r.user (toEntry r) else m

/-- The `reviewsByUser` map after the dedup loop, as an insertion-ordered
association list. -/
def dedupReviews (reviews : List Review) : List (String × Entry) :=
  reviews.foldl dedupStep []

/-- The keys of the map, in insertion order (`Object.entries` order). -/
def keysOf (m : List (String × Entry)) : List String := m.map Prod.fst

/-- The partition loop over `Object.entries(reviewsByUser)`:
`approved` collects users whose final state is `APPROVED`,
`changesRequested` those whose final state is `CHANGES_REQUESTED`. -/
def partitionReviews (m : List (String × Entry)) : List String × List String :=
  ((m.filter fun p => p.2.state = "APPROVED").map Prod.fst,
   (m.filter fun p => p.2.state = "CHANGES_REQUESTED").map Prod.fst)

/-- The dedup loop restricted to a single user: keep the stored entry
unless the incoming timestamp is strictly later. -/
def pick (acc : Option Entry) (r : Review) : Option Entry :=
  match acc with
  | none => some (toEntry r)
  | some e => if e.date < r.submitted_at then some (toEntry r) else some e

/-- `IsFirstMax l r`: `r` is the first element of `l` carrying the
strictly-latest timestamp — everything before it in `l` is strictly
earlier, everything after it is no later. -/
def IsFirstMax (l : List Review) (r : Review) : Prop :=
  ∃ l1 l2, l = l1 ++ r :: l2 ∧ (∀ x ∈ l1, x.submitted_at < r.submitted_at) ∧
    ∀ x ∈ l2, x.submitted_at ≤ r.submitted_at

/-! ## fetchChecks -/

/-- One check run (`name`, `status`, `conclusion`; the conclusion is
`null` until completion, modelled as `none`). -/
structure CheckRun where
  name : String
  status : String
  conclusion : Option String
deriving DecidableEq, Repr

/-- JavaScript truthiness of the `conclusion` field: `null` (absent) and
the empty string are falsy. -/
def truthy (o : Option String) : Bool :=
  match o with
  | none => false
  | some s => s ≠ ""

/-- The summary record `fetchChecks` returns. -/
structure CheckSummary where
  total : Nat
  passed : Nat
  failed : Nat
  pending : Nat
  failedNames : List String
deriving DecidableEq, Repr

/-- The counting logic of `fetchChecks` over `data.check_runs || []`. -/
def rollupChecks (runs : List CheckRun) : CheckSummary :=
  { total := runs.length
    passed := (runs.filter fun c => c.conclusion = some "success").length
    failed := (runs.filter fun c => truthy c.conclusion ∧ c.conclusion ≠ some "success").length
    pending := (runs.filter fun c => c.status ≠ "completed").length
    failedNames := ((runs.filter fun c => truthy c.conclusion ∧ c.conclusion ≠ some "success").map
      fun c => c.name) }

/-- The check-runs payload (`data.check_runs` may be absent). -/
structure ChecksPayload where
  check_runs : Option (List CheckRun)
deriving DecidableEq, Repr

/-- `fetchChecks`: the `github` helper throws on missing token or
non-success response; otherwise the rollup runs on the body. -/
def fetchChecks (token : Option String) (resp : GhResp ChecksPayload) :
    Except String CheckSummary :=
  (github token resp).map fun data => rollupChecks (data.check_runs.getD [])

/-! ## getPRStatus assembly -/

/-- A pull-request document with the fields `getPRStatus` reads
(`head_sha` models `pr.head.sha`, the key of the dependent checks fetch). -/
structure PRDoc where
  number : Nat
  title : String
  user : String
  state : String
  draft : Bool
  mergeable : Option Bool
  mergeable_state : Option String
  additions : Nat
  deletions : Nat
  changed_files : Nat
  head_sha : String
deriving DecidableEq, Repr

/-- `pr.mergeable === false || pr.mergeable_state === 'dirty'`. -/
def mergeConflicts (mergeable : Option Bool) (mergeable_state : Option String) : Bool :=
  mergeable = some false ∨ mergeable_state = some "dirty"

/-- The review partition of the PR status record. -/
structure ReviewPartition where
  approved : List String
  changesRequested : List String
deriving DecidableEq, Repr

/-- The record `getPRStatus` returns. -/
structure PRStatus where
  number : Nat
  title : String
  author : String
  state : String
  draft : Bool
  mergeable : Option Bool
  mergeConflicts : Bool
  additions : Nat
  deletions : Nat
  files : Nat
  reviews : ReviewPartition
  checks : CheckSummary
deriving DecidableEq, Repr

/-- `getPRStatus`: the PR and review fetches are joined fail-fast
(`Promise.all`), then the checks fetch runs keyed by `pr.head.sha` (the
environment supplies its response as `checksResp`); any non-success
response propagates the `github` helper's error.  The model sequences the
join, which is equivalent for every property stated here since a failed
join always produces some propagated error. -/
def getPRStatus (token : Option String) (prResp : GhResp PRDoc)
    (reviewsResp : GhResp (List Review)) (checksResp : GhResp ChecksPayload) :
    Except String PRStatus := do
  let pr ← github token prResp
  let reviews ← github token reviewsResp
  let checks ← fetchChecks token checksResp
  let m := dedupReviews reviews
  let part := partitionReviews m
  .ok { number := pr.number
        title := pr.title
        author := pr.user
        state := pr.state
        draft := pr.draft
        mergeable := pr.mergeable
        mergeConflicts := mergeConflicts pr.mergeable pr.mergeable_state
        additions := pr.additions
        deletions := pr.deletions
        files := pr.changed_files
        reviews := { approved := part.1, changesRequested := part.2 }
        checks := checks }

/-! ## Lemmas about the insertion-ordered review map -/

theorem findEntry_append (u k : String) (e : Entry) (m : List (String × Entry)) :
    findEntry u (m ++ [(k, e)]) =
      match findEntry u m with
      | some v => some v
      | none => if k = u then some e else none := by
  induction m with
  | nil => simp [findEntry]
  | cons p t ih =>
    obtain ⟨k0, v0⟩ := p
    by_cases h : k0 = u
    · simp [findEntry, h]
    · simpa [findEntry, h] using ih

theorem findEntry_update_self (m : List (String × Entry)) (u : String) (e v : Entry)
    (h : findEntry u m = some v) : findEntry u (updateEntry m u e) = some e := by
  induction m with
  | nil => simp [findEntry] at h
  | cons p t ih =>
    obtain ⟨k0, v0⟩ := p
    by_cases hk : k0 = u
    · simp [findEntry, updateEntry, hk]
    · simp only [findEntry, updateEntry, hk, if_false, if_neg hk] at h ⊢
      exact ih h

theorem findEntry_update_other (m : List (String × Entry)) (u v : String) (e : Entry)
    (h : v ≠ u) : findEntry v (updateEntry m u e) = findEntry v m := by
  induction m with
  | nil => simp [updateEntry]
  | cons p t ih =>
    obtain ⟨k0, v0⟩ := p
    have huv : u ≠ v := fun hh => h hh.symm
    by_cases hk : k0 = u
    · simp [updateEntry, findEntry, hk, huv]
    · by_cases hkv : k0 = v
      · simp [updateEntry, findEntry, hk, hkv, h]
      · simp [updateEntry, findEntry, hk, hkv, ih]

theorem keysOf_update (m : List (String × Entry)) (u : String) (e : Entry) :
    keysOf (updateEntry m u e) = keysOf m := by
  induction m with
  | nil => rfl
  | cons p t ih =>
    obtain ⟨k0, v0⟩ := p
    by_cases hk : k0 = u
    · simp [updateEntry, keysOf, hk]
    · simpa [updateEntry, keysOf, hk] using ih

theorem findEntry_eq_none (m : List (String × Entry)) (u : String) :
    findEntry u m = none ↔ u ∉ keysOf m := by
  induction m with
  | nil => simp [findEntry, keysOf]
  | cons p t ih =>
    obtain ⟨k0, v0⟩ := p
    by_cases hk : k0 = u <;> simp [findEntry, keysOf, hk, ih] <;> tauto

theorem mem_of_findEntry (m : List (String × Entry)) (u : String) (e : Entry)
    (h : findEntry u m = some e) : (u, e) ∈ m := by
  induction m with
  | nil => simp [findEntry] at h
  | cons p t ih =>
    obtain ⟨k0, v0⟩ := p
    by_cases hk : k0 = u
    · simp only [findEntry, hk, if_pos] at h
      subst hk
      obtain rfl : v0 = e := Option.some.inj h
      exact List.mem_cons_self _ _
    · simp only [findEntry, hk, if_neg, if_false] at h
      exact List.mem_cons_of_mem _ (ih h)

theorem findEntry_of_mem_nodup (m : List (String × Entry)) (u : String) (e : Entry)
    (hn : (keysOf m).Nodup) (h : (u, e) ∈ m) : findEntry u m = some e := by
  induction m with
  | nil => simp at h
  | cons p t ih =>
    obtain ⟨k0, v0⟩ := p
    have hn2 : (keysOf t).Nodup := (List.nodup_cons.mp hn).2
    rcases List.mem_cons.mp h with heq | ht
    · obtain ⟨h1, h2⟩ := Prod.mk.injEq u e k0 v0 ▸ heq
      subst h1; subst h2
      simp [findEntry]
    · by_cases hk : k0 = u
      · exfalso
        have hu : u ∈ keysOf t := by
          subst hk
          exact List.mem_map_of_mem Prod.fst ht
        exact (List.nodup_cons.mp hn).1 (hk ▸ hu)
      · simp only [findEntry, hk, if_neg, if_false]
        exact ih hn2 ht

/-! ## The per-user projection of the dedup loop -/

theorem findEntry_dedupStep (m : List (String × Entry)) (r : Review) (u : String) :
    findEntry u (dedupStep m r) =
      if r.user = u then pick (findEntry u m) r else findEntry u m := by
  by_cases hu : r.user = u
  · subst hu
    rw [if_pos rfl]
    unfold dedupStep pick
    cases hc : findEntry r.user m with
    | none => rw [findEntry_append]; simp [hc]
    | some e =>
      by_cases hd : e.date < r.submitted_at
      · simpa [hd] using findEntry_update_self m r.user (toEntry r) e hc
      · simp [hd, hc]
  · rw [if_neg hu]
    unfold dedupStep
    cases hc : findEntry r.user m with
    | none =>
      rw [findEntry_append]
      cases hfu : findEntry u m <;> simp [hu]
    | some e =>
      by_cases hd : e.date < r.submitted_at
      · simpa [hd] using findEntry_update_other m r.user u (toEntry r) fun hh => hu hh.symm
      · simp [hd]

theorem findEntry_foldl_dedup (rs : List Review) :
    ∀ (m : List (String × Entry)) (u : String),
      findEntry u (List.foldl dedupStep m rs) =
        List.foldl pick (findEntry u m) (rs.filter fun r => r.user = u) := by
  induction rs with
  | nil => intro m u; simp
  | cons r t ih =>
    intro m u
    rw [List.foldl_cons, ih]
    by_cases hu : r.user = u
    · rw [List.filter_cons_of_pos (by simpa using hu), List.foldl_cons,
        findEntry_dedupStep, if_pos hu]
    · rw [List.filter_cons_of_neg (by simpa using hu), findEntry_dedupStep, if_neg hu]

theorem findEntry_dedup (rs : List Review) (u : String) :
    findEntry u (dedupReviews rs) =
      List.foldl pick none (rs.filter fun r => r.user = u) := by
  have h := findEntry_foldl_dedup rs [] u
  simpa [dedupReviews, findEntry] using h

theorem dedupStep_of_none (m : List (String × Entry)) (r : Review)
    (hc : findEntry r.user m = none) :
    dedupStep m r = m ++ [(r.user, toEntry r)] := by
  unfold dedupStep; rw [hc]

theorem dedupStep_of_some (m : List (String × Entry)) (r : Review) (e : Entry)
    (hc : findEntry r.user m = some e) :
    dedupStep m r =
      if e.date < r.submitted_at then updateEntry m r.user (toEntry r) else m := by
  unfold dedupStep; rw [hc]

theorem mem_keysOf_dedupStep (m : List (String × Entry)) (r : Review) (u : String) :
    u ∈ keysOf (dedupStep m r) ↔ u ∈ keysOf m ∨ r.user = u := by
  cases hc : findEntry r.user m with
  | none =>
    rw [dedupStep_of_none m r hc]
    have hk : keysOf (m ++ [(r.user, toEntry r)]) = keysOf m ++ [r.user] := by
      simp [keysOf]
    rw [hk, List.mem_append]
    simp [eq_comm]
  | some e =>
    have hmem : r.user ∈ keysOf m := by
      by_contra hno
      rw [← findEntry_eq_none m r.user] at hno
      rw [hno] at hc; exact Option.noConfusion hc
    rw [dedupStep_of_some m r e hc]
    by_cases hd : e.date < r.submitted_at
    · rw [if_pos hd, keysOf_update]
      constructor
      · exact Or.inl
      · rintro (h | h); exacts [h, h ▸ hmem]
    · rw [if_neg hd]
      constructor
      · exact Or.inl
      · rintro (h | h); exacts [h, h ▸ hmem]

theorem mem_keysOf_dedup (rs : List Review) (u : String) :
    u ∈ keysOf (dedupReviews rs) ↔ ∃ r ∈ rs, r.user = u := by
  have main : ∀ (l : List Review) (m : List (String × Entry)),
      u ∈ keysOf (List.foldl dedupStep m l) ↔ u ∈ keysOf m ∨ ∃ r ∈ l, r.user = u := by
    intro l
    induction l with
    | nil => intro m; simp
    | cons r t ih =>
      intro m
      rw [List.foldl_cons, ih, mem_keysOf_dedupStep]
      constructor
      · rintro ((h | h) | h)
        exacts [Or.inl h, Or.inr ⟨r, List.mem_cons_self r t, h⟩,
          h.elim fun x hx => Or.inr ⟨x, List.mem_cons_of_mem r hx.1, hx.2⟩]
      · rintro (h | ⟨x, hx, hxu⟩)
        · exact Or.inl (Or.inl h)
        · rcases List.mem_cons.mp hx with rfl | hxt
          exacts [Or.inl (Or.inr hxu), Or.inr ⟨x, hxt, hxu⟩]
  simpa [dedupReviews, keysOf] using main rs []

theorem nodup_keysOf_dedup (rs : List Review) : (keysOf (dedupReviews rs)).Nodup := by
  have main : ∀ (l : List Review) (m : List (String × Entry)),
      (keysOf m).Nodup → (keysOf (List.foldl dedupStep m l)).Nodup := by
    intro l
    induction l with
    | nil => intro m hm; simpa using hm
    | cons r t ih =>
      intro m hm
      rw [List.foldl_cons]
      refine ih _ ?_
      cases hc : findEntry r.user m with
      | none =>
        have hmem : r.user ∉ keysOf m := (findEntry_eq_none m r.user).mp hc
        rw [dedupStep_of_none m r hc]
        have hk : keysOf (m ++ [(r.user, toEntry r)]) = keysOf m ++ [r.user] := by
          simp [keysOf]
        rw [hk, List.nodup_append]
        refine ⟨hm, List.nodup_singleton _, ?_⟩
        intro a ha hb
        rw [List.mem_singleton] at hb
        exact hmem (hb ▸ ha)
      | some e =>
        rw [dedupStep_of_some m r e hc]
        by_cases hd : e.date < r.submitted_at
        · rw [if_pos hd, keysOf_update]; exact hm
        · rw [if_neg hd]; exact hm
  simpa [dedupReviews, keysOf] using main rs [] (by simp [keysOf])

theorem foldl_pick_some (l : List Review) :
    ∀ (a e : Entry),
      List.foldl pick (some a) l = some e ↔
        (e = a ∧ ∀ x ∈ l, x.submitted_at ≤ a.date) ∨
        (∃ l1 r l2, l = l1 ++ r :: l2 ∧ a.date < r.submitted_at ∧
          (∀ x ∈ l1, x.submitted_at < r.submitted_at) ∧
          (∀ x ∈ l2, x.submitted_at ≤ r.submitted_at) ∧ e = toEntry r) := by
  induction l with
  | nil =>
    intro a e
    constructor
    · intro h
      exact Or.inl ⟨(Option.some.inj h).symm, by simp⟩
    · rintro (⟨rfl, _⟩ | ⟨l1, r, l2, hsplit, _⟩)
      · rfl
      · exact absurd hsplit (by simp)
  | cons x t ih =>
    intro a e
    rw [List.foldl_cons]
    by_cases h : a.date < x.submitted_at
    · have hpick : pick (some a) x = some (toEntry x) := by simp [pick, h]
      rw [hpick, ih]
      constructor
      · rintro (⟨rfl, hall⟩ | ⟨l1, r, l2, rfl, hr, h1, h2, rfl⟩)
        · exact Or.inr ⟨[], x, t, rfl, h, by simp, by simpa [toEntry] using hall, rfl⟩
        · refine Or.inr ⟨x :: l1, r, l2, rfl, ?_, ?_, h2, rfl⟩
          · exact lt_trans h (by simpa [toEntry] using hr)
          · intro y hy
            rcases List.mem_cons.mp hy with rfl | hyt
            · simpa [toEntry] using hr
            · exact h1 y hyt
      · rintro (⟨rfl, hall⟩ | ⟨l1, r, l2, hsplit, hr, h1, h2, rfl⟩)
        · exact absurd (hall x (List.mem_cons_self x t)) (not_le.mpr h)
        · cases l1 with
          | nil =>
            simp only [List.nil_append, List.cons.injEq] at hsplit
            obtain ⟨rfl, rfl⟩ := hsplit
            exact Or.inl ⟨rfl, by simpa [toEntry] using h2⟩
          | cons z l1t =>
            simp only [List.cons_append, List.cons.injEq] at hsplit
            obtain ⟨rfl, rfl⟩ := hsplit
            refine Or.inr ⟨l1t, r, l2, rfl, ?_,
              fun y hy => h1 y (List.mem_cons_of_mem _ hy), h2, rfl⟩
            simpa [toEntry] using h1 x (List.mem_cons_self _ _)
    · have hle : x.submitted_at ≤ a.date := not_lt.mp h
      have hpick : pick (some a) x = some a := by simp [pick, h]
      rw [hpick, ih]
      constructor
      · rintro (⟨rfl, hall⟩ | ⟨l1, r, l2, rfl, hr, h1, h2, rfl⟩)
        · refine Or.inl ⟨rfl, ?_⟩
          intro y hy
          rcases List.mem_cons.mp hy with rfl | hyt
          exacts [hle, hall y hyt]
        · refine Or.inr ⟨x :: l1, r, l2, rfl, hr, ?_, h2, rfl⟩
          intro y hy
          rcases List.mem_cons.mp hy with rfl | hyt
          exacts [lt_of_le_of_lt hle hr, h1 y hyt]
      · rintro (⟨rfl, hall⟩ | ⟨l1, r, l2, hsplit, hr, h1, h2, rfl⟩)
        · exact Or.inl ⟨rfl, fun y hy => hall y (List.mem_cons_of_mem _ hy)⟩
        · cases l1 with
          | nil =>
            simp only [List.nil_append, List.cons.injEq] at hsplit
            obtain ⟨rfl, rfl⟩ := hsplit
            exact absurd hr (not_lt.mpr hle)
          | cons z l1t =>
            simp only [List.cons_append, List.cons.injEq] at hsplit
            obtain ⟨rfl, rfl⟩ := hsplit
            exact Or.inr ⟨l1t, r, l2, rfl, hr,
              fun y hy => h1 y (List.mem_cons_of_mem _ hy), h2, rfl⟩

theorem foldl_pick_none_char (l : List Review) (e : Entry) :
    List.foldl pick none l = some e ↔ ∃ r, IsFirstMax l r ∧ e = toEntry r := by
  cases l with
  | nil =>
    constructor
    · intro h; exact absurd h (by simp)
    · rintro ⟨r, ⟨l1, l2, hsplit, _⟩, _⟩
      exact absurd hsplit (by simp)
  | cons x t =>
    rw [List.foldl_cons]
    have hpick : pick none x = some (toEntry x) := rfl
    rw [hpick, foldl_pick_some]
    constructor
    · rintro (⟨rfl, hall⟩ | ⟨l1, r, l2, rfl, hr, h1, h2, rfl⟩)
      · exact ⟨x, ⟨[], t, rfl, by simp, by simpa [toEntry] using hall⟩, rfl⟩
      · refine ⟨r, ⟨x :: l1, l2, rfl, ?_, h2⟩, rfl⟩
        intro y hy
        rcases List.mem_cons.mp hy with rfl | hyt
        · simpa [toEntry] using hr
        · exact h1 y hyt
    · rintro ⟨r, ⟨l1, l2, hsplit, h1, h2⟩, rfl⟩
      cases l1 with
      | nil =>
        simp only [List.nil_append, List.cons.injEq] at hsplit
        obtain ⟨rfl, rfl⟩ := hsplit
        exact Or.inl ⟨rfl, by simpa [toEntry] using h2⟩
      | cons z l1t =>
        simp only [List.cons_append, List.cons.injEq] at hsplit
        obtain ⟨rfl, rfl⟩ := hsplit
        refine Or.inr ⟨l1t, r, l2, rfl, ?_,
          fun y hy => h1 y (List.mem_cons_of_mem _ hy), h2, rfl⟩
        simpa [toEntry] using h1 x (List.mem_cons_self _ _)

theorem mem_partition_approved (m : List (String × Entry)) (u : String) :
    u ∈ (partitionReviews m).1 ↔ ∃ e, (u, e) ∈ m ∧ e.state = "APPROVED" := by
  simp only [partitionReviews, List.mem_map, List.mem_filter]
  constructor
  · rintro ⟨⟨k, e⟩, ⟨hm, hs⟩, rfl⟩
    exact ⟨e, hm, by simpa using hs⟩
  · rintro ⟨e, hm, hs⟩
    exact ⟨(u, e), ⟨hm, by simpa using hs⟩, rfl⟩

theorem mem_partition_changes (m : List (String × Entry)) (u : String) :
    u ∈ (partitionReviews m).2 ↔ ∃ e, (u, e) ∈ m ∧ e.state = "CHANGES_REQUESTED" := by
  simp only [partitionReviews, List.mem_map, List.mem_filter]
  constructor
  · rintro ⟨⟨k, e⟩, ⟨hm, hs⟩, rfl⟩
    exact ⟨e, hm, by simpa using hs⟩
  · rintro ⟨e, hm, hs⟩
    exact ⟨(u, e), ⟨hm, by simpa using hs⟩, rfl⟩

theorem entry_unique_of_nodup (m : List (String × Entry)) (u : String) (e1 e2 : Entry)
    (hn : (keysOf m).Nodup) (h1 : (u, e1) ∈ m) (h2 : (u, e2) ∈ m) : e1 = e2 := by
  have q1 := findEntry_of_mem_nodup m u e1 hn h1
  have q2 := findEntry_of_mem_nodup m u e2 hn h2
  rw [q1] at q2
  exact Option.some.inj q2

/-- C1: the deduplicated per-reviewer mapping has exactly one entry per
distinct reviewer identity (its keys are the reviewers of the input,
without duplicates), and the entry stored for a reviewer is the state and
timestamp of that reviewer's first-encountered review among those with
the strictly-latest timestamp — so a strictly later review replaces the
entry, while a later review with an equal timestamp never does. -/
theorem dedup_latest_per_reviewer (rs : List Review) (u : String) (e : Entry) :
    (keysOf (dedupReviews rs)).Nodup ∧
    (u ∈ keysOf (dedupReviews rs) ↔ ∃ r ∈ rs, r.user = u) ∧
    (findEntry u (dedupReviews rs) = some e ↔
      ∃ r, IsFirstMax (rs.filter fun r => r.user = u) r ∧ e = toEntry r) := by
  refine ⟨nodup_keysOf_dedup rs, mem_keysOf_dedup rs u, ?_⟩
  rw [findEntry_dedup, foldl_pick_none_char]

/-- Witness for C1 at a concrete input: two reviews by `a` with equal
timestamps — the first-encountered (`APPROVED`) entry is the one kept,
and the characterization exhibits it as the first maximal review. -/
theorem dedup_latest_per_reviewer_witness :
    ∃ r, IsFirstMax
        (([⟨"a", "APPROVED", 5⟩, ⟨"a", "CHANGES_REQUESTED", 5⟩] :
          List Review).filter fun r => r.user = "a") r ∧
      Entry.mk "APPROVED" 5 = toEntry r :=
  (dedup_latest_per_reviewer
    [⟨"a", "APPROVED", 5⟩, ⟨"a", "CHANGES_REQUESTED", 5⟩] "a"
    ⟨"APPROVED", 5⟩).2.2.mp (by decide)

/-- C9: in the PR status partition, no reviewer is in both `approved` and
`changesRequested`, and a reviewer whose final deduplicated state is
neither verdict appears in neither list. -/
theorem review_partition_disjoint (rs : List Review) (u : String) :
    (u ∈ (partitionReviews (dedupReviews rs)).1 →
      u ∉ (partitionReviews (dedupReviews rs)).2) ∧
    (∀ e : Entry, findEntry u (dedupReviews rs) = some e →
      e.state ≠ "APPROVED" → e.state ≠ "CHANGES_REQUESTED" →
      u ∉ (partitionReviews (dedupReviews rs)).1 ∧
      u ∉ (partitionReviews (dedupReviews rs)).2) := by
  have hn := nodup_keysOf_dedup rs
  constructor
  · intro ha hc
    obtain ⟨e1, hm1, hs1⟩ := (mem_partition_approved (dedupReviews rs) u).mp ha
    obtain ⟨e2, hm2, hs2⟩ := (mem_partition_changes (dedupReviews rs) u).mp hc
    obtain rfl := entry_unique_of_nodup (dedupReviews rs) u e1 e2 hn hm1 hm2
    rw [hs1] at hs2
    exact absurd hs2 (by decide)
  · intro e hfe hA hC
    constructor
    · intro ha
      obtain ⟨e1, hm1, hs1⟩ := (mem_partition_approved (dedupReviews rs) u).mp ha
      have he1 := findEntry_of_mem_nodup (dedupReviews rs) u e1 hn hm1
      rw [hfe] at he1
      exact hA ((Option.some.inj he1) ▸ hs1)
    · intro hc
      obtain ⟨e2, hm2, hs2⟩ := (mem_partition_changes (dedupReviews rs) u).mp hc
      have he2 := findEntry_of_mem_nodup (dedupReviews rs) u e2 hn hm2
      rw [hfe] at he2
      exact hC ((Option.some.inj he2) ▸ hs2)

/-- Witness for C9 at a concrete input: a comment-only reviewer lands in
neither list. -/
theorem review_partition_disjoint_witness :
    "alice" ∉ (partitionReviews (dedupReviews [⟨"alice", "COMMENTED", 3⟩])).1 ∧
    "alice" ∉ (partitionReviews (dedupReviews [⟨"alice", "COMMENTED", 3⟩])).2 :=
  (review_partition_disjoint [⟨"alice", "COMMENTED", 3⟩] "alice").2
    ⟨"COMMENTED", 3⟩ (by decide) (by decide) (by decide)

/-- C3: the derived merge-conflict boolean is true iff the mergeable flag
is explicitly `false` or `mergeable_state` is `"dirty"`; every other
combination, including an unknown (`null`) mergeable flag, yields false. -/
theorem merge_conflict_iff (m : Option Bool) (s : Option String) :
    (mergeConflicts m s = true ↔ m = some false ∨ s = some "dirty") ∧
    mergeConflicts none (some "unknown") = false ∧
    mergeConflicts (some false) (some "clean") = true := by
  refine ⟨?_, rfl, rfl⟩
  simp [mergeConflicts]

/-- Witness for C3: the iff applied at a concrete input. -/
theorem merge_conflict_iff_witness :
    mergeConflicts (some false) (some "clean") = true :=
  ((merge_conflict_iff (some false) (some "clean")).1).mpr (Or.inl rfl)

/-- C5: with an end date, `daysRemaining` is the ceiling of the exact
day-count to the end instant, clamped below at 0 (hence non-negative;
`ceilDiv` is the true ceiling by its Galois characterization); an end date
36 hours ahead yields 2; with no end date, `daysRemaining` is absent. -/
theorem days_remaining_spec (e now n : Int) :
    daysRemainingOf none now = none ∧
    daysRemainingOf (some e) now = some (max 0 (ceilDiv (e - now) dayMs)) ∧
    (ceilDiv (e - now) dayMs ≤ n ↔ e - now ≤ n * dayMs) ∧
    (∀ d : Int, daysRemainingOf (some e) now = some d → 0 ≤ d) ∧
    daysRemainingOf (some 129600000) 0 = some 2 := by
  refine ⟨rfl, rfl, ?_, ?_, by decide⟩
  · show -(-(e - now) / (86400000 : Int)) ≤ n ↔ e - now ≤ n * dayMs
    rw [neg_le, Int.le_ediv_iff_mul_le (by norm_num)]
    unfold dayMs
    omega
  · intro d hd
    have h2 : d = max 0 (ceilDiv (e - now) dayMs) := by
      simpa [daysRemainingOf] using hd.symm
    rw [h2]
    exact le_max_left 0 _

/-- Witness for C5: the theorem applied at the 36-hour example. -/
theorem days_remaining_spec_witness :
    (0 : Int) ≤ 2 ∧ daysRemainingOf (some 129600000) 0 = some 2 :=
  ⟨(days_remaining_spec 129600000 0 0).2.2.2.1 2 (by decide),
    (days_remaining_spec 129600000 0 0).2.2.2.2⟩

/-- C10: a non-success issue-metadata response of any status makes the
issue query fail with exactly `Issue not found: <issueKey>`; the upstream
status and body never reach the message. -/
theorem issue_not_found_message (issueKey : String) (status : Nat) (body : String)
    (panelResp : PanelFetch) :
    getIssue issueKey (.notOk status body) panelResp =
      .error ("Issue not found: " ++ issueKey) := rfl

/-- C8: any failure of the linked-PR panel fetch — a non-success response
or a thrown transport fault — makes the resolver return `[]` without
propagating, and the enclosing issue lookup still succeeds with
`prs = []`. -/
theorem panel_failure_soft (msg issueKey : String) (issue : IssueDoc) :
    fetchLinkedPRs .notOk = [] ∧
    fetchLinkedPRs (.thrown msg) = [] ∧
    getIssue issueKey (.ok issue) .notOk =
      .ok { key := issue.key, summary := issue.fields.summary,
            status := issue.fields.statusName, assignee := assigneeOf issue.fields,
            prs := [] } ∧
    getIssue issueKey (.ok issue) (.thrown msg) =
      .ok { key := issue.key, summary := issue.fields.summary,
            status := issue.fields.statusName, assignee := assigneeOf issue.fields,
            prs := [] } :=
  ⟨rfl, rfl, rfl, rfl⟩

/-- C6: the sprint query fails hard, naming the project, when the board
response is non-success or the board list is empty; an empty active-sprint
list on a found board is not an error and returns exactly
`{name: null, message: "No active sprint", issues: []}`. -/
theorem sprint_board_hard_no_active_soft (projectKey : String) (status : Nat)
    (body : String) (sprintResp : JiraResp SprintsPayload) (bp : BoardsPayload)
    (sp : SprintsPayload) (issuesBody : IssuesPayload) (now : Int) (b : Board)
    (bs : List Board) (hbp : bp.values.getD [] = []) (hsp : sp.values.getD [] = []) :
    getSprint projectKey (.notOk status body) sprintResp issuesBody now =
      .error ("No board found for project: " ++ projectKey) ∧
    getSprint projectKey (.ok bp) sprintResp issuesBody now =
      .error ("No board found for project: " ++ projectKey) ∧
    getSprint projectKey (.ok ⟨some (b :: bs)⟩) (.ok sp) issuesBody now =
      .ok noActiveSprint := by
  refine ⟨rfl, ?_, ?_⟩
  · simp [getSprint, hbp]
  · simp [getSprint, hsp]

/-- Witness for C6 at concrete inputs. -/
theorem sprint_board_hard_no_active_soft_witness :
    getSprint "PROJ" (.ok ⟨none⟩) (.ok ⟨some []⟩) ⟨none⟩ 0 =
      .error "No board found for project: PROJ" ∧
    getSprint "PROJ" (.ok ⟨some [⟨7⟩]⟩) (.ok ⟨some []⟩) ⟨none⟩ 0 =
      .ok noActiveSprint := by
  have h := sprint_board_hard_no_active_soft "PROJ" 500 "x" (.ok ⟨some []⟩) ⟨none⟩
    ⟨some []⟩ ⟨none⟩ 0 ⟨7⟩ [] rfl rfl
  exact ⟨h.2.1, h.2.2⟩

/-- C2 counterexample: in the sprint query a non-success response to the
active-sprints fetch is converted into the soft result
`{name: null, message: "No active sprint", issues: []}` rather than
aborting the query — the claim that it is fatal is false at this input. -/
theorem sprint_transport_fault_swallowed :
    getSprint "PROJ" (.ok ⟨some [⟨1⟩]⟩) (.notOk 500 "Internal Server Error")
      ⟨some []⟩ 0 = .ok noActiveSprint := rfl

/-- C2 (amended): non-success responses on the GitHub-path fetches (PR
metadata, reviews, check runs) abort the query with an error carrying the
upstream status and body; the Jira-path issue and board fetches abort with
descriptive errors that omit status and body; and in the sprint query a
non-success active-sprints response is converted into the soft
no-active-sprint result (the sprint-issues response status is never
consulted: `getSprint` takes only its parsed body). -/
theorem hard_fault_propagation (token issueKey projectKey : String) (status : Nat)
    (body : String) (reviewsResp : GhResp (List Review))
    (checksResp : GhResp ChecksPayload) (pr : PRDoc) (reviews : List Review)
    (panelResp : PanelFetch) (sprintResp : JiraResp SprintsPayload)
    (issuesBody : IssuesPayload) (now : Int) (b : Board) (bs : List Board) :
    getPRStatus (some token) (.notOk status body) reviewsResp checksResp =
      .error ("GitHub API error " ++ toString status ++ ": " ++ body) ∧
    getPRStatus (some token) (.ok pr) (.notOk status body) checksResp =
      .error ("GitHub API error " ++ toString status ++ ": " ++ body) ∧
    getPRStatus (some token) (.ok pr) (.ok reviews) (.notOk status body) =
      .error ("GitHub API error " ++ toString status ++ ": " ++ body) ∧
    getIssue issueKey (.notOk status body) panelResp =
      .error ("Issue not found: " ++ issueKey) ∧
    getSprint projectKey (.notOk status body) sprintResp issuesBody now =
      .error ("No board found for project: " ++ projectKey) ∧
    getSprint projectKey (.ok ⟨some (b :: bs)⟩) (.notOk status body) issuesBody now =
      .ok noActiveSprint :=
  ⟨rfl, rfl, rfl, rfl, rfl, rfl⟩

theorem truthy_eq_isSome (o : Option String) (h : o ≠ some "") :
    truthy o = o.isSome := by
  cases o with
  | none => rfl
  | some s =>
    have hs : s ≠ "" := fun h0 => h (by rw [h0])
    simp [truthy, hs]

/-- C4: over any list of check runs whose conclusions are GitHub conclusion
values (never the empty string, which JavaScript truthiness would conflate
with absent), `total` is the run count, `passed` counts success
conclusions, `failed` counts present non-success conclusions, `pending`
counts non-completed runs regardless of conclusion — and a non-completed
run with a present non-success conclusion lands in both the failed and the
pending selections. -/
theorem checks_rollup (runs : List CheckRun)
    (hwf : ∀ r ∈ runs, r.conclusion ≠ some "") :
    (rollupChecks runs).total = runs.length ∧
    (rollupChecks runs).passed =
      runs.countP (fun c => c.conclusion = some "success") ∧
    (rollupChecks runs).failed =
      runs.countP (fun c => c.conclusion.isSome ∧ c.conclusion ≠ some "success") ∧
    (rollupChecks runs).pending =
      runs.countP (fun c => c.status ≠ "completed") ∧
    ∀ r ∈ runs, r.status ≠ "completed" → r.conclusion.isSome →
      r.conclusion ≠ some "success" →
      r ∈ (runs.filter fun c => truthy c.conclusion ∧ c.conclusion ≠ some "success") ∧
      r ∈ (runs.filter fun c => c.status ≠ "completed") := by
  refine ⟨rfl, (List.countP_eq_length_filter _ _).symm, ?_,
    (List.countP_eq_length_filter _ _).symm, ?_⟩
  · rw [List.countP_eq_length_filter]
    show (runs.filter fun c => truthy c.conclusion ∧ c.conclusion ≠ some "success").length
      = (runs.filter fun c => c.conclusion.isSome ∧ c.conclusion ≠ some "success").length
    congr 1
    refine List.filter_congr ?_
    intro r hr
    have ht := truthy_eq_isSome r.conclusion (hwf r hr)
    simp [ht]
  · intro r hr hst hcs hcn
    have ht : truthy r.conclusion = true := by
      rw [truthy_eq_isSome r.conclusion (hwf r hr)]; exact hcs
    constructor
    · refine List.mem_filter.mpr ⟨hr, ?_⟩
      simp [ht, hcn]
    · refine List.mem_filter.mpr ⟨hr, ?_⟩
      simp [hst]

/-- Witness for C4 at a concrete run list containing an inconsistent run
(`in_progress` with conclusion `failure`) that is counted both failed and
pending. -/
theorem checks_rollup_witness :
    (rollupChecks [⟨"build", "in_progress", some "failure"⟩,
      ⟨"unit", "completed", some "success"⟩, ⟨"lint", "queued", none⟩]).total = 3 ∧
    (⟨"build", "in_progress", some "failure"⟩ : CheckRun) ∈
      ([⟨"build", "in_progress", some "failure"⟩, ⟨"unit", "completed", some "success"⟩,
        ⟨"lint", "queued", none⟩] : List CheckRun).filter
        (fun c => truthy c.conclusion ∧ c.conclusion ≠ some "success") ∧
    (⟨"build", "in_progress", some "failure"⟩ : CheckRun) ∈
      ([⟨"build", "in_progress", some "failure"⟩, ⟨"unit", "completed", some "success"⟩,
        ⟨"lint", "queued", none⟩] : List CheckRun).filter
        (fun c => c.status ≠ "completed") := by
  have h := checks_rollup [⟨"build", "in_progress", some "failure"⟩,
    ⟨"unit", "completed", some "success"⟩, ⟨"lint", "queued", none⟩] (by decide)
  have h2 := h.2.2.2.2 ⟨"build", "in_progress", some "failure"⟩ (by decide)
    (by decide) (by decide) (by decide)
  exact ⟨h.1, h2.1, h2.2⟩

theorem startsWithL_iff (p : List Char) : ∀ l : List Char,
    startsWithL p l = true ↔ ∃ t, l = p ++ t := by
  induction p with
  | nil => intro l; simp [startsWithL]
  | cons c cs ih =>
    intro l
    cases l with
    | nil =>
      simp only [startsWithL, List.cons_append]
      constructor
      · intro h; exact absurd h (by simp)
      · rintro ⟨t, ht⟩; exact absurd ht (by simp)
    | cons d ds =>
      simp only [startsWithL, Bool.and_eq_true, decide_eq_true_eq, ih ds,
        List.cons_append]
      constructor
      · rintro ⟨rfl, t, rfl⟩
        exact ⟨t, rfl⟩
      · rintro ⟨t, ht⟩
        injection ht with h1 h2
        subst h1
        exact ⟨rfl, t, h2⟩

theorem afterSlash_eq_some (l t : List Char) :
    afterSlash l = some t ↔ l = '/' :: t := by
  cases l with
  | nil => simp [afterSlash]
  | cons c ct =>
    by_cases hc : c = '/'
    · subst hc
      simp [afterSlash]
    · simp [afterSlash, hc]

theorem matchAt_sound (l : List Char) (r : String) (n : Nat)
    (h : matchAt l = some (r, n)) :
    ∃ own rep ds rest : List Char,
      l = ghHost ++ own ++ '/' :: (rep ++ pullSeg ++ ds ++ rest) ∧
      own ≠ [] ∧ (∀ c ∈ own, c ≠ '/') ∧ rep ≠ [] ∧ (∀ c ∈ rep, c ≠ '/') ∧
      ds ≠ [] ∧ (∀ c ∈ ds, c.isDigit) ∧
      r = ⟨own ++ '/' :: rep⟩ ∧ n = natOfDigits ds := by
  simp only [matchAt] at h
  split at h
  case isFalse => exact absurd h (by simp)
  case isTrue h0 =>
    split at h
    case h_2 => exact absurd h (by simp)
    case h_1 r2 hsl =>
      split at h
      case isTrue => exact absurd h (by simp)
      case isFalse hown =>
        split at h
        case isTrue => exact absurd h (by simp)
        case isFalse hrep =>
          split at h
          case isFalse => exact absurd h (by simp)
          case isTrue hps =>
            split at h
            case isTrue => exact absurd h (by simp)
            case isFalse hds =>
              have hp := Option.some.inj h
              simp only [Prod.mk.injEq] at hp
              obtain ⟨hr, hn⟩ := hp
              obtain ⟨t0, ht0⟩ := (startsWithL_iff ghHost l).mp h0
              have hdrop : l.drop ghHost.length = t0 := by
                rw [ht0]; exact List.drop_left ghHost t0
              rw [hdrop] at hsl hown hr
              have hdw : t0.dropWhile (fun c => c ≠ '/') = '/' :: r2 :=
                (afterSlash_eq_some _ r2).mp hsl
              obtain ⟨t4, ht4⟩ :=
                (startsWithL_iff pullSeg (r2.dropWhile fun c => c ≠ '/')).mp hps
              have hdrop4 : (r2.dropWhile fun c => c ≠ '/').drop pullSeg.length = t4 := by
                rw [ht4]; exact List.drop_left pullSeg t4
              rw [hdrop4] at hds hn
              refine ⟨t0.takeWhile (fun c => c ≠ '/'), r2.takeWhile (fun c => c ≠ '/'),
                t4.takeWhile Char.isDigit, t4.dropWhile Char.isDigit, ?_, hown, ?_,
                hrep, ?_, hds, ?_, hr.symm, hn.symm⟩
              · have hteq : t0 = t0.takeWhile (fun c => c ≠ '/') ++ '/' ::
                    (r2.takeWhile (fun c => c ≠ '/') ++ (pullSeg ++
                      (t4.takeWhile Char.isDigit ++ t4.dropWhile Char.isDigit))) := by
                  calc t0
                    = t0.takeWhile (fun c => c ≠ '/') ++ t0.dropWhile (fun c => c ≠ '/') :=
                      (List.takeWhile_append_dropWhile _ _).symm
                  _ = t0.takeWhile (fun c => c ≠ '/') ++ '/' :: r2 := by rw [hdw]
                  _ = t0.takeWhile (fun c => c ≠ '/') ++ '/' ::
                        (r2.takeWhile (fun c => c ≠ '/') ++ r2.dropWhile (fun c => c ≠ '/')) := by
                      rw [List.takeWhile_append_dropWhile]
                  _ = t0.takeWhile (fun c => c ≠ '/') ++ '/' ::
                        (r2.takeWhile (fun c => c ≠ '/') ++ (pullSeg ++ t4)) := by
                      rw [ht4]
                  _ = t0.takeWhile (fun c => c ≠ '/') ++ '/' ::
                        (r2.takeWhile (fun c => c ≠ '/') ++ (pullSeg ++
                          (t4.takeWhile Char.isDigit ++ t4.dropWhile Char.isDigit))) := by
                      rw [List.takeWhile_append_dropWhile]
                rw [ht0]
                conv_lhs => rw [hteq]
                simp [List.append_assoc]
              · intro c hc
                simpa using List.mem_takeWhile_imp hc
              · intro c hc
                simpa using List.mem_takeWhile_imp hc
              · intro c hc
                exact List.mem_takeWhile_imp hc

theorem searchPR_sound (l : List Char) (r : String) (n : Nat)
    (h : searchPR l = some (r, n)) :
    ∃ p s : List Char, l = p ++ s ∧ matchAt s = some (r, n) := by
  induction l with
  | nil => exact absurd h (by simp [searchPR])
  | cons c t ih =>
    rw [searchPR] at h
    cases hm : matchAt (c :: t) with
    | some x =>
      rw [hm] at h
      obtain rfl := Option.some.inj h
      exact ⟨[], c :: t, rfl, hm⟩
    | none =>
      rw [hm] at h
      obtain ⟨p, s, rfl, hs⟩ := ih h
      exact ⟨c :: p, s, rfl, hs⟩

theorem matchPRUrl_sound (u : String) (r : String) (n : Nat)
    (h : matchPRUrl u = some (r, n)) :
    ∃ pre own rep ds rest : List Char,
      u.data = pre ++ ghHost ++ own ++ '/' :: (rep ++ pullSeg ++ ds ++ rest) ∧
      own ≠ [] ∧ (∀ c ∈ own, c ≠ '/') ∧ rep ≠ [] ∧ (∀ c ∈ rep, c ≠ '/') ∧
      ds ≠ [] ∧ (∀ c ∈ ds, c.isDigit) ∧
      r = ⟨own ++ '/' :: rep⟩ ∧ n = natOfDigits ds := by
  obtain ⟨p, s, hsplit, hm⟩ := searchPR_sound u.data r n h
  obtain ⟨own, rep, ds, rest, hdec, h1, h2, h3, h4, h5, h6, h7, h8⟩ :=
    matchAt_sound s r n hm
  exact ⟨p, own, rep, ds, rest, by rw [hsplit, hdec]; simp [List.append_assoc],
    h1, h2, h3, h4, h5, h6, h7, h8⟩

theorem extractPRs_eq_filterMap (data : PanelData) :
    extractPRs data = (refsOf data).filterMap emitRef := by
  rw [refsOf, List.filterMap_flatMap]
  rfl

theorem extractPRs_length (data : PanelData) :
    (extractPRs data).length =
      ((refsOf data).filter fun pr => (pr.url.bind matchPRUrl).isSome).length := by
  rw [extractPRs_eq_filterMap, List.length_filterMap_eq_countP,
    List.countP_eq_length_filter]
  congr 1
  refine List.filter_congr ?_
  intro pr _
  unfold emitRef
  cases pr.url.bind matchPRUrl <;> rfl

theorem toLower_ne_empty (s : String) (h : s ≠ "") : s.toLower ≠ "" := by
  intro h0
  apply h
  have hmap : s.toLower = ⟨s.data.map Char.toLower⟩ := String.map_eq Char.toLower s
  rw [hmap] at h0
  have hdata : s.data.map Char.toLower = [] := congrArg String.data h0
  have hnil : s.data = [] := List.map_eq_nil_iff.mp hdata
  exact String.ext (hnil.trans rfl)

/-- C7: the resolver emits exactly one LinkedPR per reference whose URL
matches the pattern (the output is the `filterMap` of the references, and
its length counts the matching references); every match decomposes the URL
around `github.com/<owner>/<repo>/pull/<digits>` with slash-free nonempty
owner and repo captured as `repo`, the digit run parsed as `number`, and
the state is the status lowercased, or `"unknown"` when absent; the
spec's end-to-end example evaluates as stated. -/
theorem linked_pr_resolution (data : PanelData) (u r : String) (n : Nat) (s : String) :
    extractPRs data = (refsOf data).filterMap emitRef ∧
    (extractPRs data).length =
      ((refsOf data).filter fun pr => (pr.url.bind matchPRUrl).isSome).length ∧
    (matchPRUrl u = some (r, n) →
      ∃ pre own rep ds rest : List Char,
        u.data = pre ++ ghHost ++ own ++ '/' :: (rep ++ pullSeg ++ ds ++ rest) ∧
        own ≠ [] ∧ (∀ c ∈ own, c ≠ '/') ∧ rep ≠ [] ∧ (∀ c ∈ rep, c ≠ '/') ∧
        ds ≠ [] ∧ (∀ c ∈ ds, c.isDigit) ∧
        r = ⟨own ++ '/' :: rep⟩ ∧ n = natOfDigits ds) ∧
    prState none = "unknown" ∧
    (s ≠ "" → prState (some s) = s.toLower) ∧
    extractPRs ⟨some [⟨some [⟨some "https://github.com/acme/widgets/pull/42",
      some "OPEN"⟩]⟩]⟩ = [⟨"acme/widgets", 42, "open"⟩] := by
  have hlow : "OPEN".toLower = "open" := by
    rw [String.toLower, String.map_eq]
    decide
  have hopen : prState (some "OPEN") = "open" := by
    simp [prState, hlow]
  have hm : matchPRUrl "https://github.com/acme/widgets/pull/42" =
      some ("acme/widgets", 42) := by decide
  refine ⟨extractPRs_eq_filterMap data, extractPRs_length data,
    matchPRUrl_sound u r n, rfl, ?_, ?_⟩
  · intro hs
    have hne := toLower_ne_empty s hs
    simp [prState, hne]
  · simp [extractPRs, hm, hopen]

/-- Witness for C7: the decomposition produced by the theorem at the
spec's example URL. -/
theorem linked_pr_resolution_witness :
    ∃ pre own rep ds rest : List Char,
      ("https://github.com/acme/widgets/pull/42" : String).data =
        pre ++ ghHost ++ own ++ '/' :: (rep ++ pullSeg ++ ds ++ rest) ∧
      own ≠ [] ∧ (∀ c ∈ own, c ≠ '/') ∧ rep ≠ [] ∧ (∀ c ∈ rep, c ≠ '/') ∧
      ds ≠ [] ∧ (∀ c ∈ ds, c.isDigit) ∧
      "acme/widgets" = (⟨own ++ '/' :: rep⟩ : String) ∧ 42 = natOfDigits ds :=
  (linked_pr_resolution ⟨none⟩ "https://github.com/acme/widgets/pull/42"
    "acme/widgets" 42 "OPEN").2.2.1 (by decide)

end ProjectAgent
